import Mathlib

/-!
# Verification of the CSR SpMV benchmark (PARCO-Computing-2026)

Shallow embedding of `src/csrpar.cpp` (and the sequential twin `csrseq.cpp`):
the COO triplet store, the COO→CSR construction performed in `main`
(sort by `compareTriplets`, then a linear scan with row-pointer backfill),
the two SpMV kernels `spmv_csr_sequential` / `spmv_csr_parallel`, the
OpenMP configuration step of `main`, and the warm-up + timed-runs benchmark
loop of `main`.

Machine doubles are modelled in two complementary ways:
* the kernels are parameterized by arbitrary uninterpreted operations
  `add`, `mul` and a `zero` element, so every theorem about accumulation
  holds for any interpretation of the operations — in particular for
  IEEE-754 double arithmetic — and therefore pins the exact order of
  accumulation (a left fold in ascending nonzero index);
* concrete scenarios instantiate them (with `ℤ` or `ℚ` values, on which
  the small literal values of the scenarios — 1.0, 2.0, 3.0, … — behave
  exactly as IEEE-754 doubles do).

C++ `int` indices are modelled as `ℕ` (all indexing in the benchmark is
with non-negative in-range values; no claim exercises overflow), and
`std::vector` reads/writes as `List.getD`/`List.set`.
-/

namespace CsrPar

/-- `struct Triplet { int row; int col; double val; }` — one COO entry.
The value type `α` is abstract (doubles in the source). -/
structure Triplet (α : Type) where
  row : ℕ
  col : ℕ
  val : α
deriving DecidableEq

/-- `compareTriplets` from the source: strict lexicographic comparison by
`(row, col)`, used as the comparator of `std::sort`. -/
def compareTriplets {α : Type} (a b : Triplet α) : Bool :=
  if a.row < b.row then true
  else if a.row = b.row then decide (a.col < b.col)
  else false

/-- The non-strict order induced by the comparator: `a` may precede `b` in
the output of `std::sort(…, compareTriplets)` exactly when
`compareTriplets b a = false`. -/
def tripletLe {α : Type} (a b : Triplet α) : Prop :=
  compareTriplets b a = false

instance {α : Type} : DecidableRel (tripletLe (α := α)) :=
  fun a b => instDecidableEqBool (compareTriplets b a) false

/-- `std::sort(triplets.begin(), triplets.end(), compareTriplets)` —
modelled as insertion sort: `std::sort` guarantees a permutation of the
input that is sorted for the comparator (the order of `(row, col)`-ties is
unspecified in C++; insertion sort fixes one admissible such order). -/
def sortTriplets {α : Type} (ts : List (Triplet α)) : List (Triplet α) :=
  List.insertionSort tripletLe ts

/-- `struct CsrMatrix` from the source. -/
structure CsrMatrix (α : Type) where
  rows : ℕ
  cols : ℕ
  nnz : ℕ
  row_ptr : List ℕ
  col_ind : List ℕ
  values : List α
deriving DecidableEq

/-- The while loop
`while (current_row < t.row) { ++current_row; row_ptr[current_row] = i; }`
(and, with other arguments, the trailing loop
`for (i = current_row+1; i <= rows; ++i) row_ptr[i] = nnz;`):
starting at `cur`, performs `n` steps, each incrementing the row cursor and
writing `x` at the new slot; returns the updated array and cursor. -/
def advanceRow (rp : List ℕ) (cur x : ℕ) : ℕ → List ℕ × ℕ
  | 0 => (rp, cur)
  | n + 1 => advanceRow (rp.set (cur + 1) x) (cur + 1) x n

/-- State of the COO→CSR scan loop in `main`: next write index `i`, the
`current_row` cursor, and the three CSR arrays under construction
(`col_ind`/`values` grow by one slot per iteration, matching the writes
`csr.col_ind[i] = …; csr.values[i] = …` at the ever-increasing index `i`). -/
structure ScanState (α : Type) where
  i : ℕ
  current_row : ℕ
  row_ptr : List ℕ
  col_ind : List ℕ
  values : List α

/-- One iteration of `for (i = 0; i < nnz; ++i) { … }` in the COO→CSR
conversion of `main`. -/
def scanStep {α : Type} (st : ScanState α) (t : Triplet α) : ScanState α :=
  let p := advanceRow st.row_ptr st.current_row st.i (t.row - st.current_row)
  { i := st.i + 1
    current_row := p.2
    row_ptr := p.1
    col_ind := st.col_ind ++ [t.col]
    values := st.values ++ [t.val] }

/-- The COO→CSR conversion block of `main` (`CsrBuilder.build` in the spec):
sort the triplets with `compareTriplets`, initialise `row_ptr` to
`rows + 1` zeros, run the scan loop, then backfill the remaining `row_ptr`
slots through index `rows` with `nnz`.  Note: faithful to the source, no
validation of `rows`, `cols` or the triplets is performed.  Modelling
caveat: `List.set` drops out-of-bounds writes, so this embedding is
faithful only where the C++ behaviour is defined — every triplet row in
`[0, rows)` (a triplet row `≥ rows` makes the C++ write `row_ptr` out of
bounds) — and `ℕ` dimensions leave the negative-dimension abort of
`row_ptr.assign(rows+1, 0)` out of the model; every theorem below about
`build` stays inside that domain. -/
def build {α : Type} (rows cols : ℕ) (ts : List (Triplet α)) : CsrMatrix α :=
  let sorted := sortTriplets ts
  let nnz := ts.length
  let st := sorted.foldl scanStep
    { i := 0, current_row := 0, row_ptr := List.replicate (rows + 1) 0,
      col_ind := [], values := [] }
  { rows := rows
    cols := cols
    nnz := nnz
    row_ptr := (advanceRow st.row_ptr st.current_row nnz (rows - st.current_row)).1
    col_ind := st.col_ind
    values := st.values }

/-- The per-row accumulation shared verbatim by both kernels:
`double sum = 0.0; for (j = row_ptr[i]; j < row_ptr[i+1]; ++j)
sum += values[j] * v_in[col_ind[j]];` — a left fold in ascending `j`. -/
def rowSum {α : Type} (add mul : α → α → α) (zero : α) (A : CsrMatrix α)
    (v : List α) (i : ℕ) : α :=
  let row_start := A.row_ptr.getD i 0
  let row_end := A.row_ptr.getD (i + 1) 0
  (List.range' row_start (row_end - row_start)).foldl
    (fun sum j => add sum (mul (A.values.getD j zero) (v.getD (A.col_ind.getD j 0) zero)))
    zero

/-- Writing `c_out[i] = rowSum i` for each row index `i` drawn from `order`,
into the caller-supplied output buffer `c`.  Both kernels are instances:
the sequential one processes rows in order `0, 1, …, rows-1`; the parallel
one processes them in whatever completion order the OpenMP schedule
produces (every interleaving is equivalent to some such order because each
row writes a distinct slot and reads only `A` and `v`). -/
def runRows {α : Type} (f : ℕ → α) (order : List ℕ) (c : List α) : List α :=
  order.foldl (fun c_out i => c_out.set i (f i)) c

/-- `spmv_csr_sequential` from the source: rows processed in ascending
order, each row accumulated by `rowSum`. -/
def spmv_csr_sequential {α : Type} (add mul : α → α → α) (zero : α)
    (A : CsrMatrix α) (v c : List α) : List α :=
  runRows (rowSum add mul zero A v) (List.range A.rows) c

/-- `spmv_csr_parallel` from the source: `#pragma omp parallel for
schedule(runtime)` over the rows, same loop body as the sequential kernel.
`order` is the completion order of the row writes induced by the
schedule/chunk/thread configuration; a faithful execution yields some
permutation of `0, …, rows-1`. -/
def spmv_csr_parallel {α : Type} (add mul : α → α → α) (zero : α)
    (A : CsrMatrix α) (v : List α) (order : List ℕ) (c : List α) : List α :=
  runRows (rowSum add mul zero A v) order c

/-- The OpenMP schedule kinds accepted by `main`. -/
inductive SchedKind where
  | static
  | dynamic
  | guided
deriving DecidableEq

/-- The configuration `main` hands to the OpenMP runtime
(`omp_set_schedule`, `omp_set_num_threads`). `chunk` and `threads` are C++
`int`s, hence `ℤ`. -/
structure OmpConfig where
  sched : SchedKind
  chunk : ℤ
  threads : ℤ
deriving DecidableEq

/-- The configuration step of `main` (lines 128–142): the schedule string
is matched against `"static"`, `"dynamic"`, `"guided"`; anything else is an
error exit before any kernel work.  Faithful to the source, `chunk_size`
and `num_threads` are NOT range-checked — they are passed straight to
`omp_set_schedule`/`omp_set_num_threads`. -/
def configureRun (schedule_str : String) (chunk_size num_threads : ℤ) :
    Option OmpConfig :=
  if schedule_str = "static" then
    some { sched := SchedKind.static, chunk := chunk_size, threads := num_threads }
  else if schedule_str = "dynamic" then
    some { sched := SchedKind.dynamic, chunk := chunk_size, threads := num_threads }
  else if schedule_str = "guided" then
    some { sched := SchedKind.guided, chunk := chunk_size, threads := num_threads }
  else
    none

/-- The random input vector of `main`:
`uniform_real_distribution<double> dist(-1000.0, 1000.0)` applied to `cols`
fresh generator draws.  The distribution maps a raw uniform sample
`u ∈ [0, 1)` to `-1000 + 2000 * u ∈ [-1000, 1000)`; the sample stream `u`
is abstract (the source seeds `mt19937` from `random_device`). -/
def genVector (u : ℕ → ℚ) (cols : ℕ) : List ℚ :=
  (List.range cols).map (fun i => -1000 + 2000 * u i)

/-- Result of the benchmark loop of `main`: the (reused) output buffer, the
number of kernel invocations performed, and the recorded per-run times. -/
structure BenchResult (α : Type) where
  c : List α
  kernel_calls : ℕ
  times_ms : List ℚ

/-- The benchmark loop of `main` (`BenchmarkHarness.run` in the spec): one
untimed warm-up call, then `timed_runs` timed calls (the source fixes
`NUM_RUNS = 10`), each bracketed by two reads of the wall clock
(`omp_get_wtime`, modelled as the abstract sample stream `clock`; timed run
`run` reads samples `2*run` and `2*run + 1`), recording
`(end - start) * 1000` milliseconds per run, with no aggregation.  The
output buffer `c` is reused across all calls, exactly as `c_output` is. -/
def benchmarkHarness {α : Type} (kernel : List α → List α) (c0 : List α)
    (clock : ℕ → ℚ) (timed_runs : ℕ) : BenchResult α :=
  let warm := kernel c0
  (List.range timed_runs).foldl
    (fun st run =>
      let start := clock (2 * run)
      let c_next := kernel st.c
      let finish := clock (2 * run + 1)
      { c := c_next
        kernel_calls := st.kernel_calls + 1
        times_ms := st.times_ms ++ [(finish - start) * 1000] })
    { c := warm, kernel_calls := 1, times_ms := [] }

/-! ## Generic list access lemmas -/

theorem getD_set_eq_ite {α : Type} (l : List α) (j : ℕ) (x : α) (r : ℕ) (d : α) :
    (l.set j x).getD r d = if r = j ∧ j < l.length then x else l.getD r d := by
  by_cases hr : r < l.length
  · rw [List.getD_eq_getElem _ _ (by simpa using hr), List.getD_eq_getElem _ _ hr,
      List.getElem_set]
    by_cases hrj : r = j
    · subst hrj; simp [hr]
    · rw [if_neg (fun h => hrj h.symm), if_neg (fun hc => hrj hc.1)]
  · rw [List.getD_eq_default _ _ (by simpa using Nat.le_of_not_lt hr),
      List.getD_eq_default _ _ (Nat.le_of_not_lt hr)]
    have h : ¬(r = j ∧ j < l.length) := by
      rintro ⟨rfl, h⟩; exact hr h
    simp [h]

/-! ## Lemmas about the row-pointer backfill loop -/

theorem advanceRow_snd (rp : List ℕ) (cur x n : ℕ) :
    (advanceRow rp cur x n).2 = cur + n := by
  induction n generalizing rp cur with
  | zero => rfl
  | succ n ih => rw [advanceRow, ih]; omega

theorem advanceRow_length (rp : List ℕ) (cur x n : ℕ) :
    (advanceRow rp cur x n).1.length = rp.length := by
  induction n generalizing rp cur with
  | zero => rfl
  | succ n ih => rw [advanceRow, ih, List.length_set]

theorem advanceRow_getD (rp : List ℕ) (cur x n r : ℕ) :
    (advanceRow rp cur x n).1.getD r 0 =
      if cur < r ∧ r ≤ cur + n ∧ r < rp.length then x else rp.getD r 0 := by
  induction n generalizing rp cur with
  | zero => rw [advanceRow, if_neg (by omega)]
  | succ n ih =>
    rw [advanceRow, ih, List.length_set, getD_set_eq_ite]
    split_ifs <;> first | rfl | (exfalso; omega)

/-! ## Lemmas about the row-write loop shared by both kernels -/

theorem runRows_cons {α : Type} (f : ℕ → α) (j : ℕ) (o : List ℕ) (c : List α) :
    runRows f (j :: o) c = runRows f o (c.set j (f j)) :=
  rfl

theorem runRows_length {α : Type} (f : ℕ → α) (order : List ℕ) (c : List α) :
    (runRows f order c).length = c.length := by
  induction order generalizing c with
  | nil => rfl
  | cons j o ih =>
    rw [runRows_cons, ih, List.length_set]

theorem runRows_getD_of_not_mem {α : Type} (f : ℕ → α) (order : List ℕ) (c : List α)
    (i : ℕ) (d : α) (h : i ∉ order) : (runRows f order c).getD i d = c.getD i d := by
  induction order generalizing c with
  | nil => rfl
  | cons j o ih =>
    have hij : i ≠ j := fun e => h (e ▸ List.mem_cons_self j o)
    rw [runRows_cons, ih _ (fun hm => h (List.mem_cons_of_mem j hm)), getD_set_eq_ite,
      if_neg (fun hc => hij hc.1)]

theorem runRows_getD_of_mem {α : Type} (f : ℕ → α) (order : List ℕ) (c : List α)
    (i : ℕ) (d : α) (hmem : i ∈ order) (hi : i < c.length) :
    (runRows f order c).getD i d = f i := by
  induction order generalizing c with
  | nil => simp at hmem
  | cons j o ih =>
    rw [runRows_cons]
    by_cases h : i ∈ o
    · exact ih (c.set j (f j)) h (by simpa using hi)
    · have hij : i = j := by
        rcases List.mem_cons.mp hmem with h' | h'
        · exact h'
        · exact absurd h' h
      subst hij
      rw [runRows_getD_of_not_mem f o _ i d h, getD_set_eq_ite, if_pos ⟨rfl, hi⟩]

theorem runRows_eq_map {α : Type} (f : ℕ → α) (n : ℕ) (order : List ℕ) (c : List α)
    (hperm : order.Perm (List.range n)) (hc : c.length = n) :
    runRows f order c = (List.range n).map f := by
  apply List.ext_getElem
  · rw [runRows_length, hc, List.length_map, List.length_range]
  · intro i h1 h2
    have hi : i < n := by simpa using h2
    have hmem : i ∈ order := hperm.mem_iff.mpr (List.mem_range.mpr hi)
    rw [← List.getD_eq_getElem _ (f i) h1,
      runRows_getD_of_mem f order c i (f i) hmem (by rw [hc]; exact hi)]
    simp

/-! ## The comparator and the sort -/

theorem compareTriplets_eq_true_iff {α : Type} (a b : Triplet α) :
    compareTriplets a b = true ↔
      a.row < b.row ∨ (a.row = b.row ∧ a.col < b.col) := by
  unfold compareTriplets
  split_ifs with h1 h2 <;> simp_all

theorem tripletLe_iff {α : Type} (a b : Triplet α) :
    tripletLe a b ↔ a.row < b.row ∨ (a.row = b.row ∧ a.col ≤ b.col) := by
  unfold tripletLe
  rw [← Bool.not_eq_true, compareTriplets_eq_true_iff]
  omega

instance {α : Type} : IsTotal (Triplet α) tripletLe :=
  ⟨fun a b => by rw [tripletLe_iff, tripletLe_iff]; omega⟩

instance {α : Type} : IsTrans (Triplet α) tripletLe :=
  ⟨fun a b c hab hbc => by
    rw [tripletLe_iff] at hab hbc ⊢
    omega⟩

theorem sortTriplets_sorted {α : Type} (ts : List (Triplet α)) :
    List.Sorted tripletLe (sortTriplets ts) :=
  List.sorted_insertionSort tripletLe ts

theorem sortTriplets_perm {α : Type} (ts : List (Triplet α)) :
    (sortTriplets ts).Perm ts :=
  List.perm_insertionSort tripletLe ts

theorem sortTriplets_rows_pairwise {α : Type} (ts : List (Triplet α)) :
    List.Pairwise (fun a b : Triplet α => a.row ≤ b.row) (sortTriplets ts) :=
  (sortTriplets_sorted ts).imp (fun h => by rw [tripletLe_iff] at h; omega)

/-! ## Lemmas about the COO→CSR scan loop -/

theorem scan_row_ptr_length {α : Type} :
    ∀ (rest : List (Triplet α)) (st : ScanState α),
      (rest.foldl scanStep st).row_ptr.length = st.row_ptr.length := by
  intro rest
  induction rest with
  | nil => intro st; rfl
  | cons t r ih =>
    intro st
    rw [List.foldl_cons, ih]
    simp [scanStep, advanceRow_length]

theorem scan_col_ind {α : Type} :
    ∀ (rest : List (Triplet α)) (st : ScanState α),
      (rest.foldl scanStep st).col_ind = st.col_ind ++ rest.map Triplet.col := by
  intro rest
  induction rest with
  | nil => intro st; simp
  | cons t r ih =>
    intro st
    rw [List.foldl_cons, ih]
    simp [scanStep]

theorem scan_values {α : Type} :
    ∀ (rest : List (Triplet α)) (st : ScanState α),
      (rest.foldl scanStep st).values = st.values ++ rest.map Triplet.val := by
  intro rest
  induction rest with
  | nil => intro st; simp
  | cons t r ih =>
    intro st
    rw [List.foldl_cons, ih]
    simp [scanStep]

/-- Loop invariant of the COO→CSR scan: processing the remaining sorted
triplets `rest` after `done`, the row cursor ends at the last row seen, the
`row_ptr` slots up to the cursor hold the number of triplets of strictly
smaller rows, and the slots beyond the cursor are still the initial 0. -/
theorem scan_row_ptr_invariant {α : Type} (rows : ℕ) :
    ∀ (rest : List (Triplet α)) (st : ScanState α) (done : List (Triplet α)),
      (∀ t ∈ rest, t.row < rows) →
      List.Pairwise (fun a b : Triplet α => a.row ≤ b.row) rest →
      (∀ t ∈ rest, st.current_row ≤ t.row) →
      st.current_row < rows →
      st.i = done.length →
      (∀ t ∈ done, t.row ≤ st.current_row) →
      st.row_ptr.length = rows + 1 →
      (∀ r, r ≤ st.current_row →
        st.row_ptr.getD r 0 = done.countP (fun t => decide (t.row < r))) →
      (∀ r, st.current_row < r → st.row_ptr.getD r 0 = 0) →
      ((rest.foldl scanStep st).current_row < rows ∧
        (∀ t ∈ done ++ rest, t.row ≤ (rest.foldl scanStep st).current_row) ∧
        (∀ r, r ≤ (rest.foldl scanStep st).current_row →
          (rest.foldl scanStep st).row_ptr.getD r 0 =
            (done ++ rest).countP (fun t => decide (t.row < r))) ∧
        (∀ r, (rest.foldl scanStep st).current_row < r →
          (rest.foldl scanStep st).row_ptr.getD r 0 = 0)) := by
  intro rest
  induction rest with
  | nil =>
    intro st done _ _ _ hcur _ hdone _ hlow hhigh
    exact ⟨hcur, by simpa using hdone, by simpa using hlow, hhigh⟩
  | cons t rest ih =>
    intro st done hvalid hpair hge hcur hi hdone hlen hlow hhigh
    have ht_row : st.current_row ≤ t.row := hge t (List.mem_cons_self t rest)
    have ht_lt : t.row < rows := hvalid t (List.mem_cons_self t rest)
    rcases List.pairwise_cons.mp hpair with ⟨hthead, hptail⟩
    -- facts about the state after one scan step
    have hcur' : (scanStep st t).current_row = t.row := by
      simp only [scanStep, advanceRow_snd]
      omega
    have hlen' : (scanStep st t).row_ptr.length = rows + 1 := by
      simp only [scanStep, advanceRow_length]
      exact hlen
    have hgetD : ∀ r, (scanStep st t).row_ptr.getD r 0 =
        if st.current_row < r ∧ r ≤ t.row ∧ r < rows + 1 then st.i
        else st.row_ptr.getD r 0 := by
      intro r
      simp only [scanStep, advanceRow_getD, hlen]
      have harith : st.current_row + (t.row - st.current_row) = t.row := by omega
      rw [harith]
    have hi' : (scanStep st t).i = (done ++ [t]).length := by
      simp [scanStep, hi]
    rw [List.foldl_cons]
    have key := ih (scanStep st t) (done ++ [t])
      (fun u hu => hvalid u (List.mem_cons_of_mem t hu))
      hptail
      (fun u hu => by rw [hcur']; exact hthead u hu)
      (by rw [hcur']; exact ht_lt)
      hi'
      (by
        intro u hu
        rw [hcur']
        rcases List.mem_append.mp hu with hu' | hu'
        · exact le_trans (hdone u hu') ht_row
        · rcases List.mem_singleton.mp hu' with rfl
          exact le_refl _)
      hlen'
      (by
        intro r hr
        rw [hcur'] at hr
        rw [hgetD r, List.countP_append]
        have hnot : ¬(t.row < r) := by omega
        simp only [List.countP_cons, List.countP_nil, Nat.zero_add, decide_eq_true_eq]
        rw [if_neg hnot]
        by_cases hcase : st.current_row < r
        · rw [if_pos ⟨hcase, hr, by omega⟩, hi]
          have : done.countP (fun t => decide (t.row < r)) = done.length :=
            List.countP_eq_length.mpr (fun u hu => by
              simp only [decide_eq_true_eq]
              exact lt_of_le_of_lt (hdone u hu) hcase)
          omega
        · rw [if_neg (fun hc => hcase hc.1), hlow r (by omega)]
          omega)
      (by
        intro r hr
        rw [hcur'] at hr
        rw [hgetD r, if_neg (by omega)]
        exact hhigh r (by omega))
    have hassoc : (done ++ [t]) ++ rest = done ++ t :: rest := by simp
    rw [hassoc] at key
    exact key

/-! ## Characterization of the built row pointers -/

theorem build_row_ptr_length {α : Type} (rows cols : ℕ) (ts : List (Triplet α)) :
    (build rows cols ts).row_ptr.length = rows + 1 := by
  unfold build
  simp only [advanceRow_length, scan_row_ptr_length, List.length_replicate]

theorem build_col_ind {α : Type} (rows cols : ℕ) (ts : List (Triplet α)) :
    (build rows cols ts).col_ind = (sortTriplets ts).map Triplet.col := by
  simp [build, scan_col_ind]

theorem build_values {α : Type} (rows cols : ℕ) (ts : List (Triplet α)) :
    (build rows cols ts).values = (sortTriplets ts).map Triplet.val := by
  simp [build, scan_values]

/-- The built `row_ptr[r]`, for `r ≤ rows` and valid triplet rows, counts
the triplets whose row is strictly below `r`. -/
theorem build_row_ptr_getD {α : Type} (rows cols : ℕ) (ts : List (Triplet α))
    (hrows : 0 < rows) (hv : ∀ t ∈ ts, t.row < rows) (r : ℕ) (hr : r ≤ rows) :
    (build rows cols ts).row_ptr.getD r 0 =
      ts.countP (fun t => decide (t.row < r)) := by
  have hv' : ∀ t ∈ sortTriplets ts, t.row < rows :=
    fun t ht => hv t ((sortTriplets_perm ts).mem_iff.mp ht)
  have hrepl : ∀ m, (List.replicate (rows + 1) (0 : ℕ)).getD m 0 = 0 := by
    intro m
    by_cases hm : m < rows + 1
    · rw [List.getD_eq_getElem _ _ (by simpa using hm), List.getElem_replicate]
    · rw [List.getD_eq_default _ _ (by simpa using Nat.le_of_not_lt hm)]
  have key := scan_row_ptr_invariant rows (sortTriplets ts)
    { i := 0, current_row := 0, row_ptr := List.replicate (rows + 1) 0,
      col_ind := [], values := [] } []
    hv'
    (sortTriplets_rows_pairwise ts)
    (fun t _ => Nat.zero_le t.row)
    hrows
    rfl
    (fun t ht => absurd ht (List.not_mem_nil t))
    (by simp)
    (by
      intro r' hr'
      have : r' = 0 := Nat.le_zero.mp hr'
      subst this
      simp [hrepl])
    (fun r' _ => hrepl r')
  simp only [List.nil_append] at key
  obtain ⟨kcur, kall, klow, khigh⟩ := key
  set stF := (sortTriplets ts).foldl scanStep
    { i := 0, current_row := 0, row_ptr := List.replicate (rows + 1) 0,
      col_ind := [], values := [] } with hstF
  have hlenF : stF.row_ptr.length = rows + 1 := by
    rw [hstF, scan_row_ptr_length]
    simp
  have hbuild : (build rows cols ts).row_ptr =
      (advanceRow stF.row_ptr stF.current_row ts.length (rows - stF.current_row)).1 := by
    rfl
  rw [hbuild, advanceRow_getD, hlenF]
  have harith : stF.current_row + (rows - stF.current_row) = rows := by omega
  rw [harith]
  rw [← (sortTriplets_perm ts).countP_eq (fun t => decide (t.row < r))]
  by_cases hcase : stF.current_row < r
  · rw [if_pos ⟨hcase, hr, by omega⟩]
    have hall : (sortTriplets ts).countP (fun t => decide (t.row < r)) =
        (sortTriplets ts).length :=
      List.countP_eq_length.mpr (fun u hu => by
        simp only [decide_eq_true_eq]
        exact lt_of_le_of_lt (kall u hu) hcase)
    rw [hall, (sortTriplets_perm ts).length_eq]
  · rw [if_neg (fun hc => hcase hc.1)]
    exact klow r (Nat.le_of_not_lt hcase)

/-! ## Claim theorems about the SpMV kernels -/

/-- C1: `spmv_csr_sequential` returns a vector whose entry `i`, for every
row `i < A.rows`, is the sum over `k ∈ [row_ptr[i], row_ptr[i+1])` of
`values[k] * v[col_ind[k]]`, accumulated as a left fold in ascending `k`
from `zero` — stated for arbitrary uninterpreted `add`/`mul`, hence in
particular for IEEE-754 double addition.  The 2×2 scenario of the claim is
established by the witness below. -/
theorem spmv_sequential_rowwise_sum {α : Type} (add mul : α → α → α) (zero : α)
    (A : CsrMatrix α) (v c : List α) (hc : c.length = A.rows) (i : ℕ)
    (hi : i < A.rows) :
    (spmv_csr_sequential add mul zero A v c).getD i zero =
      (List.range' (A.row_ptr.getD i 0)
          (A.row_ptr.getD (i + 1) 0 - A.row_ptr.getD i 0)).foldl
        (fun sum k =>
          add sum (mul (A.values.getD k zero) (v.getD (A.col_ind.getD k 0) zero)))
        zero := by
  unfold spmv_csr_sequential
  rw [runRows_getD_of_mem _ _ _ _ _ (List.mem_range.mpr hi) (by rw [hc]; exact hi)]
  rfl

/-- Witness for C1: the claim's own 2×2 scenario — triplets
`(0,0,1.0), (0,1,2.0), (1,1,3.0)`, `v = [1,1]` — where the theorem is
applied at row 0, and the full output is `[3, 3]`. -/
theorem spmv_sequential_rowwise_sum_witness :
    ((spmv_csr_sequential (· + ·) (· * ·) (0 : ℤ)
        (build 2 2 [⟨0, 0, 1⟩, ⟨0, 1, 2⟩, ⟨1, 1, 3⟩]) [1, 1] [0, 0]).getD 0 0 =
      (List.range'
          ((build 2 2 [(⟨0, 0, 1⟩ : Triplet ℤ), ⟨0, 1, 2⟩, ⟨1, 1, 3⟩]).row_ptr.getD 0 0)
          ((build 2 2 [(⟨0, 0, 1⟩ : Triplet ℤ), ⟨0, 1, 2⟩, ⟨1, 1, 3⟩]).row_ptr.getD 1 0 -
            (build 2 2 [(⟨0, 0, 1⟩ : Triplet ℤ), ⟨0, 1, 2⟩, ⟨1, 1, 3⟩]).row_ptr.getD 0 0)).foldl
        (fun sum k =>
          sum + (build 2 2 [(⟨0, 0, 1⟩ : Triplet ℤ), ⟨0, 1, 2⟩, ⟨1, 1, 3⟩]).values.getD k 0 *
            ([(1 : ℤ), 1].getD
              ((build 2 2 [(⟨0, 0, 1⟩ : Triplet ℤ), ⟨0, 1, 2⟩, ⟨1, 1, 3⟩]).col_ind.getD k 0) 0))
        0) ∧
    spmv_csr_sequential (· + ·) (· * ·) (0 : ℤ)
        (build 2 2 [⟨0, 0, 1⟩, ⟨0, 1, 2⟩, ⟨1, 1, 3⟩]) [1, 1] [0, 0] = [3, 3] :=
  ⟨spmv_sequential_rowwise_sum (· + ·) (· * ·) (0 : ℤ)
      (build 2 2 [⟨0, 0, 1⟩, ⟨0, 1, 2⟩, ⟨1, 1, 3⟩]) [1, 1] [0, 0] (by decide) 0 (by decide),
    by decide⟩

/-- C2: for every matrix and vector, the parallel kernel — for every row
completion order induced by any thread count / schedule / chunk
configuration, i.e. every permutation of the row range — produces output
identical (hence bit-identical under any interpretation of the arithmetic,
IEEE-754 doubles included) to the sequential kernel: each row is summed by
a single worker in ascending-k order. -/
theorem spmv_parallel_eq_sequential {α : Type} (add mul : α → α → α) (zero : α)
    (A : CsrMatrix α) (v : List α) (order : List ℕ) (c : List α)
    (hperm : order.Perm (List.range A.rows)) (hc : c.length = A.rows) :
    spmv_csr_parallel add mul zero A v order c =
      spmv_csr_sequential add mul zero A v c := by
  unfold spmv_csr_parallel spmv_csr_sequential
  rw [runRows_eq_map _ A.rows order c hperm hc,
    runRows_eq_map _ A.rows (List.range A.rows) c (List.Perm.refl _) hc]

/-- Witness for C2: the 2×2 scenario matrix with rows completed in the
order `[1, 0]`. -/
theorem spmv_parallel_eq_sequential_witness :
    ([1, 0] : List ℕ).Perm
        (List.range (build 2 2 [(⟨0, 0, 1⟩ : Triplet ℤ), ⟨0, 1, 2⟩, ⟨1, 1, 3⟩]).rows) ∧
    spmv_csr_parallel (· + ·) (· * ·) (0 : ℤ)
        (build 2 2 [⟨0, 0, 1⟩, ⟨0, 1, 2⟩, ⟨1, 1, 3⟩]) [1, 1] [1, 0] [0, 0] =
      spmv_csr_sequential (· + ·) (· * ·) (0 : ℤ)
        (build 2 2 [⟨0, 0, 1⟩, ⟨0, 1, 2⟩, ⟨1, 1, 3⟩]) [1, 1] [0, 0] :=
  ⟨by decide,
    spmv_parallel_eq_sequential (· + ·) (· * ·) (0 : ℤ)
      (build 2 2 [⟨0, 0, 1⟩, ⟨0, 1, 2⟩, ⟨1, 1, 3⟩]) [1, 1] [1, 0] [0, 0]
      (by decide) (by decide)⟩

/-- C8: both kernels are deterministic and idempotent — the output depends
only on `(A, v)`: it is unchanged when the output buffer is reused (as the
benchmark loop does), re-running a kernel on its own output reproduces it,
and the parallel kernel gives the same output for any two buffer contents
and any two row completion orders.  The kernels read `A` and `v` only
(they are parameters of `rowSum`, never written). -/
theorem spmv_kernels_deterministic_idempotent {α : Type} (add mul : α → α → α)
    (zero : α) (A : CsrMatrix α) (v c₁ c₂ : List α) (o₁ o₂ : List ℕ)
    (h₁ : c₁.length = A.rows) (h₂ : c₂.length = A.rows)
    (ho₁ : o₁.Perm (List.range A.rows)) (ho₂ : o₂.Perm (List.range A.rows)) :
    spmv_csr_sequential add mul zero A v c₁ = spmv_csr_sequential add mul zero A v c₂ ∧
    spmv_csr_sequential add mul zero A v (spmv_csr_sequential add mul zero A v c₁) =
      spmv_csr_sequential add mul zero A v c₁ ∧
    spmv_csr_parallel add mul zero A v o₁ c₁ = spmv_csr_parallel add mul zero A v o₂ c₂ ∧
    spmv_csr_parallel add mul zero A v o₁ (spmv_csr_parallel add mul zero A v o₂ c₁) =
      spmv_csr_parallel add mul zero A v o₂ c₁ := by
  have key : ∀ (o : List ℕ) (c : List α), o.Perm (List.range A.rows) →
      c.length = A.rows →
      runRows (rowSum add mul zero A v) o c =
        (List.range A.rows).map (rowSum add mul zero A v) :=
    fun o c h1 h2 => runRows_eq_map _ A.rows o c h1 h2
  have hmaplen : ((List.range A.rows).map (rowSum add mul zero A v)).length = A.rows := by
    rw [List.length_map, List.length_range]
  have hrefl : (List.range A.rows).Perm (List.range A.rows) := List.Perm.refl _
  refine ⟨?_, ?_, ?_, ?_⟩
  · unfold spmv_csr_sequential
    rw [key _ _ hrefl h₁, key _ _ hrefl h₂]
  · unfold spmv_csr_sequential
    rw [key _ _ hrefl h₁, key _ _ hrefl hmaplen]
  · unfold spmv_csr_parallel
    rw [key _ _ ho₁ h₁, key _ _ ho₂ h₂]
  · unfold spmv_csr_parallel
    rw [key _ _ ho₂ h₁, key _ _ ho₁ hmaplen]

/-- Witness for C8: the 2×2 scenario matrix, two distinct buffers and two
distinct completion orders. -/
theorem spmv_kernels_deterministic_idempotent_witness :
    spmv_csr_sequential (· + ·) (· * ·) (0 : ℤ)
        (build 2 2 [⟨0, 0, 1⟩, ⟨0, 1, 2⟩, ⟨1, 1, 3⟩]) [1, 1] [0, 0] =
      spmv_csr_sequential (· + ·) (· * ·) (0 : ℤ)
        (build 2 2 [⟨0, 0, 1⟩, ⟨0, 1, 2⟩, ⟨1, 1, 3⟩]) [1, 1] [7, 9] ∧
    spmv_csr_sequential (· + ·) (· * ·) (0 : ℤ)
        (build 2 2 [⟨0, 0, 1⟩, ⟨0, 1, 2⟩, ⟨1, 1, 3⟩]) [1, 1]
        (spmv_csr_sequential (· + ·) (· * ·) (0 : ℤ)
          (build 2 2 [⟨0, 0, 1⟩, ⟨0, 1, 2⟩, ⟨1, 1, 3⟩]) [1, 1] [0, 0]) =
      spmv_csr_sequential (· + ·) (· * ·) (0 : ℤ)
        (build 2 2 [⟨0, 0, 1⟩, ⟨0, 1, 2⟩, ⟨1, 1, 3⟩]) [1, 1] [0, 0] ∧
    spmv_csr_parallel (· + ·) (· * ·) (0 : ℤ)
        (build 2 2 [⟨0, 0, 1⟩, ⟨0, 1, 2⟩, ⟨1, 1, 3⟩]) [1, 1] [1, 0] [0, 0] =
      spmv_csr_parallel (· + ·) (· * ·) (0 : ℤ)
        (build 2 2 [⟨0, 0, 1⟩, ⟨0, 1, 2⟩, ⟨1, 1, 3⟩]) [1, 1] [0, 1] [7, 9] ∧
    spmv_csr_parallel (· + ·) (· * ·) (0 : ℤ)
        (build 2 2 [⟨0, 0, 1⟩, ⟨0, 1, 2⟩, ⟨1, 1, 3⟩]) [1, 1] [1, 0]
        (spmv_csr_parallel (· + ·) (· * ·) (0 : ℤ)
          (build 2 2 [⟨0, 0, 1⟩, ⟨0, 1, 2⟩, ⟨1, 1, 3⟩]) [1, 1] [0, 1] [0, 0]) =
      spmv_csr_parallel (· + ·) (· * ·) (0 : ℤ)
        (build 2 2 [⟨0, 0, 1⟩, ⟨0, 1, 2⟩, ⟨1, 1, 3⟩]) [1, 1] [0, 1] [0, 0] :=
  spmv_kernels_deterministic_idempotent (· + ·) (· * ·) (0 : ℤ)
    (build 2 2 [⟨0, 0, 1⟩, ⟨0, 1, 2⟩, ⟨1, 1, 3⟩]) [1, 1] [0, 0] [7, 9] [1, 0] [0, 1]
    (by decide) (by decide) (by decide) (by decide)

/-! ## Positions in a row-sorted triplet list -/

/-- In a list whose rows are non-decreasing, the element at position `k`
has row `< i` exactly when `k` lies below the count of rows `< i`. -/
theorem sorted_row_pos {α : Type} (i : ℕ) :
    ∀ (l : List (Triplet α)),
      List.Pairwise (fun a b : Triplet α => a.row ≤ b.row) l →
      ∀ (k : ℕ) (hk : k < l.length),
        (l[k].row < i ↔ k < l.countP (fun t => decide (t.row < i))) := by
  intro l
  induction l with
  | nil => intro _ k hk; simp at hk
  | cons a l ih =>
    intro hp k hk
    rcases List.pairwise_cons.mp hp with ⟨ha, hl⟩
    by_cases hai : a.row < i
    · rw [List.countP_cons, if_pos (by simpa using hai)]
      cases k with
      | zero =>
        rw [List.getElem_cons_zero]
        constructor
        · intro _; omega
        · intro _; exact hai
      | succ k =>
        rw [List.getElem_cons_succ,
          ih hl k (by simp only [List.length_cons] at hk; omega)]
        omega
    · have h0 : (a :: l).countP (fun t => decide (t.row < i)) = 0 :=
        List.countP_eq_zero.mpr (by
          intro t ht
          simp only [decide_eq_true_eq]
          rcases List.mem_cons.mp ht with rfl | ht'
          · exact hai
          · intro hc; exact hai (lt_of_le_of_lt (ha t ht') hc))
      rw [h0]
      constructor
      · intro hc
        exfalso
        rcases List.mem_cons.mp (List.getElem_mem hk) with he | ht'
        · rw [he] at hc; exact hai hc
        · exact hai (lt_of_le_of_lt (ha _ ht') hc)
      · omega

/-! ## Claim theorems about the COO→CSR construction -/

/-- C3: for every valid triplet set (positive dimensions, indices in
range) the built matrix satisfies the CSR invariants: `row_ptr[0] = 0`,
`row_ptr[rows] = nnz`, `row_ptr` monotone non-decreasing, every column
index below `cols`, and the column indices of each row's slice ascending
(non-strictly: duplicated `(row, col)` pairs are retained side by side). -/
theorem build_satisfies_csr_invariants {α : Type} (rows cols : ℕ)
    (ts : List (Triplet α)) (hrows : 0 < rows) (_hcols : 0 < cols)
    (hv : ∀ t ∈ ts, t.row < rows ∧ t.col < cols) :
    (build rows cols ts).row_ptr.getD 0 0 = 0 ∧
    (build rows cols ts).row_ptr.getD rows 0 = (build rows cols ts).nnz ∧
    (∀ r s : ℕ, r ≤ s → s ≤ rows →
      (build rows cols ts).row_ptr.getD r 0 ≤ (build rows cols ts).row_ptr.getD s 0) ∧
    (∀ k : ℕ, k < (build rows cols ts).nnz →
      (build rows cols ts).col_ind.getD k 0 < cols) ∧
    (∀ i k1 k2 : ℕ, i < rows →
      (build rows cols ts).row_ptr.getD i 0 ≤ k1 → k1 < k2 →
      k2 < (build rows cols ts).row_ptr.getD (i + 1) 0 →
      (build rows cols ts).col_ind.getD k1 0 ≤ (build rows cols ts).col_ind.getD k2 0) := by
  have hvr : ∀ t ∈ ts, t.row < rows := fun t ht => (hv t ht).1
  have hrp := build_row_ptr_getD rows cols ts hrows hvr
  have hnnz : (build rows cols ts).nnz = ts.length := rfl
  have hsortlen : (sortTriplets ts).length = ts.length := (sortTriplets_perm ts).length_eq
  have hcount : ∀ r, (sortTriplets ts).countP (fun t => decide (t.row < r)) =
      ts.countP (fun t => decide (t.row < r)) :=
    fun r => (sortTriplets_perm ts).countP_eq _
  refine ⟨?_, ?_, ?_, ?_, ?_⟩
  · rw [hrp 0 (Nat.zero_le rows)]
    exact List.countP_eq_zero.mpr (by intro t _; simp)
  · rw [hrp rows (le_refl rows), hnnz]
    exact List.countP_eq_length.mpr (by intro t ht; simpa using hvr t ht)
  · intro r s hrs hs
    rw [hrp r (le_trans hrs hs), hrp s hs]
    exact List.countP_mono_left (by
      intro t _ h
      simp only [decide_eq_true_eq] at h ⊢
      omega)
  · intro k hk
    rw [hnnz] at hk
    have hks : k < (sortTriplets ts).length := by rw [hsortlen]; exact hk
    rw [build_col_ind]
    have hk' : k < ((sortTriplets ts).map Triplet.col).length := by
      rw [List.length_map]; exact hks
    rw [List.getD_eq_getElem _ _ hk', List.getElem_map]
    exact (hv _ ((sortTriplets_perm ts).mem_iff.mp (List.getElem_mem hks))).2
  · intro i k1 k2 hi hk1 h12 hk2
    rw [hrp (i + 1) (by omega)] at hk2
    rw [hrp i (by omega)] at hk1
    rw [← hcount] at hk1 hk2
    have hlen2 : k2 < (sortTriplets ts).length :=
      lt_of_lt_of_le hk2 (List.countP_le_length _)
    have hlen1 : k1 < (sortTriplets ts).length := lt_trans h12 hlen2
    have hrow1 : (sortTriplets ts)[k1].row = i := by
      have hlt : (sortTriplets ts)[k1].row < i + 1 :=
        (sorted_row_pos (i + 1) _ (sortTriplets_rows_pairwise ts) k1 hlen1).mpr (by omega)
      have hge : ¬((sortTriplets ts)[k1].row < i) := by
        rw [sorted_row_pos i _ (sortTriplets_rows_pairwise ts) k1 hlen1]
        omega
      omega
    have hrow2 : (sortTriplets ts)[k2].row = i := by
      have hlt : (sortTriplets ts)[k2].row < i + 1 :=
        (sorted_row_pos (i + 1) _ (sortTriplets_rows_pairwise ts) k2 hlen2).mpr hk2
      have hge : ¬((sortTriplets ts)[k2].row < i) := by
        rw [sorted_row_pos i _ (sortTriplets_rows_pairwise ts) k2 hlen2]
        omega
      omega
    have hlex := List.pairwise_iff_get.mp (sortTriplets_sorted ts)
      ⟨k1, hlen1⟩ ⟨k2, hlen2⟩ (Fin.mk_lt_mk.mpr h12)
    rw [tripletLe_iff] at hlex
    simp only [List.get_eq_getElem] at hlex
    rw [build_col_ind]
    have hk1' : k1 < ((sortTriplets ts).map Triplet.col).length := by
      rw [List.length_map]; exact hlen1
    have hk2' : k2 < ((sortTriplets ts).map Triplet.col).length := by
      rw [List.length_map]; exact hlen2
    rw [List.getD_eq_getElem _ _ hk1', List.getD_eq_getElem _ _ hk2',
      List.getElem_map, List.getElem_map]
    omega

/-- Witness for C3: the invariants applied to the 1×1 matrix with the
single triplet `(0, 0, 5.0)`. -/
theorem build_satisfies_csr_invariants_witness :
    (build 1 1 [(⟨0, 0, 5⟩ : Triplet ℤ)]).row_ptr.getD 0 0 = 0 ∧
    (build 1 1 [(⟨0, 0, 5⟩ : Triplet ℤ)]).row_ptr.getD 1 0 =
      (build 1 1 [(⟨0, 0, 5⟩ : Triplet ℤ)]).nnz :=
  ⟨(build_satisfies_csr_invariants 1 1 [⟨0, 0, 5⟩] (by decide) (by decide)
      (by decide)).1,
    (build_satisfies_csr_invariants 1 1 [⟨0, 0, 5⟩] (by decide) (by decide)
      (by decide)).2.1⟩

/-- C7: empty rows — if no triplet lies in row `i`, the built matrix has
`row_ptr[i] = row_ptr[i+1]` (skipped and trailing empty rows are
backfilled) and both kernels produce `zero` at position `i`, whatever the
other rows contain. -/
theorem build_empty_row_zero {α : Type} (add mul : α → α → α) (zero : α)
    (rows cols : ℕ) (ts : List (Triplet α)) (v c : List α) (order : List ℕ)
    (hrows : 0 < rows) (hv : ∀ t ∈ ts, t.row < rows)
    (i : ℕ) (hi : i < rows) (hempty : ∀ t ∈ ts, t.row ≠ i)
    (hc : c.length = rows) (hord : order.Perm (List.range rows)) :
    (build rows cols ts).row_ptr.getD i 0 =
      (build rows cols ts).row_ptr.getD (i + 1) 0 ∧
    (spmv_csr_sequential add mul zero (build rows cols ts) v c).getD i zero = zero ∧
    (spmv_csr_parallel add mul zero (build rows cols ts) v order c).getD i zero =
      zero := by
  have heq : (build rows cols ts).row_ptr.getD i 0 =
      (build rows cols ts).row_ptr.getD (i + 1) 0 := by
    rw [build_row_ptr_getD rows cols ts hrows hv i (by omega),
      build_row_ptr_getD rows cols ts hrows hv (i + 1) (by omega)]
    exact List.countP_congr (by
      intro t ht
      have := hempty t ht
      simp only [decide_eq_true_eq]
      omega)
  have hrowsum : rowSum add mul zero (build rows cols ts) v i = zero := by
    simp only [rowSum, ← heq, Nat.sub_self]
    rfl
  refine ⟨heq, ?_, ?_⟩
  · unfold spmv_csr_sequential
    rw [show (build rows cols ts).rows = rows from rfl,
      runRows_getD_of_mem _ _ _ _ _ (List.mem_range.mpr hi) (by rw [hc]; exact hi)]
    exact hrowsum
  · unfold spmv_csr_parallel
    rw [runRows_getD_of_mem _ _ _ _ _ (hord.mem_iff.mpr (List.mem_range.mpr hi))
      (by rw [hc]; exact hi)]
    exact hrowsum

/-- Witness for C7: in the 2×2 matrix with the single triplet `(0,0,7.0)`,
row 1 is empty: `row_ptr[1] = row_ptr[2]` and both kernels give 0 there. -/
theorem build_empty_row_zero_witness :
    (build 2 2 [(⟨0, 0, 7⟩ : Triplet ℤ)]).row_ptr.getD 1 0 =
      (build 2 2 [(⟨0, 0, 7⟩ : Triplet ℤ)]).row_ptr.getD 2 0 ∧
    (spmv_csr_sequential (· + ·) (· * ·) (0 : ℤ)
        (build 2 2 [⟨0, 0, 7⟩]) [1, 1] [9, 9]).getD 1 0 = 0 ∧
    (spmv_csr_parallel (· + ·) (· * ·) (0 : ℤ)
        (build 2 2 [⟨0, 0, 7⟩]) [1, 1] [1, 0] [9, 9]).getD 1 0 = 0 :=
  build_empty_row_zero (· + ·) (· * ·) (0 : ℤ) 2 2 [⟨0, 0, 7⟩] [1, 1] [9, 9] [1, 0]
    (by decide) (by decide) 1 (by decide) (by decide) (by decide) (by decide)

/-- C6: duplicate `(row, col)` triplets are never merged: the built values
are a permutation (with multiplicity) of all input values, `nnz` and the
CSR arrays count every triplet, and the duplicated-triplet scenario sums
both copies — 1×1 matrix, `(0,0,1.0)` twice, `v = [1.0]` gives
`c = [2.0]` from either kernel. -/
theorem build_no_merge_duplicates {α : Type} (rows cols : ℕ)
    (ts : List (Triplet α)) :
    ((build rows cols ts).values).Perm (ts.map Triplet.val) ∧
    (build rows cols ts).nnz = ts.length ∧
    (build rows cols ts).col_ind.length = ts.length ∧
    spmv_csr_sequential (· + ·) (· * ·) (0 : ℤ)
        (build 1 1 [⟨0, 0, 1⟩, ⟨0, 0, 1⟩]) [1] [0] = [2] ∧
    spmv_csr_parallel (· + ·) (· * ·) (0 : ℤ)
        (build 1 1 [⟨0, 0, 1⟩, ⟨0, 0, 1⟩]) [1] [0] [0] = [2] := by
  refine ⟨?_, rfl, ?_, by decide, by decide⟩
  · rw [build_values]
    exact (sortTriplets_perm ts).map Triplet.val
  · rw [build_col_ind, List.length_map]
    exact (sortTriplets_perm ts).length_eq

/-- C10: building from an empty triplet sequence succeeds: `row_ptr` is
`rows + 1` zeros, `col_ind` and `values` are empty, and both kernels
return the all-zero vector of length `rows` on any input vector. -/
theorem build_empty_triplets {α : Type} (add mul : α → α → α) (zero : α)
    (rows cols : ℕ) (hrows : 0 < rows) (_hcols : 0 < cols)
    (v c : List α) (order : List ℕ) (hc : c.length = rows)
    (hord : order.Perm (List.range rows)) :
    (build rows cols ([] : List (Triplet α))).row_ptr.length = rows + 1 ∧
    (∀ r, r < rows + 1 →
      (build rows cols ([] : List (Triplet α))).row_ptr.getD r 0 = 0) ∧
    (build rows cols ([] : List (Triplet α))).col_ind = [] ∧
    (build rows cols ([] : List (Triplet α))).values = [] ∧
    spmv_csr_sequential add mul zero (build rows cols ([] : List (Triplet α))) v c =
      List.replicate rows zero ∧
    spmv_csr_parallel add mul zero (build rows cols ([] : List (Triplet α))) v
        order c =
      List.replicate rows zero := by
  have hzero : ∀ r, r ≤ rows →
      (build rows cols ([] : List (Triplet α))).row_ptr.getD r 0 = 0 := by
    intro r hr
    rw [build_row_ptr_getD rows cols [] hrows (by intro t ht; simp at ht) r hr]
    exact List.countP_nil _
  have hrs : ∀ i, rowSum add mul zero (build rows cols ([] : List (Triplet α))) v i =
      zero := by
    intro i
    by_cases hi : i + 1 ≤ rows
    · simp only [rowSum, hzero i (by omega), hzero (i + 1) hi, Nat.sub_self]
      rfl
    · have hlen := build_row_ptr_length (α := α) rows cols []
      have h1 : (build rows cols ([] : List (Triplet α))).row_ptr.getD (i + 1) 0 = 0 := by
        rw [List.getD_eq_default]
        rw [hlen]
        omega
      by_cases hi0 : i ≤ rows
      · simp only [rowSum, hzero i hi0, h1, Nat.sub_self]
        rfl
      · have h0 : (build rows cols ([] : List (Triplet α))).row_ptr.getD i 0 = 0 := by
          rw [List.getD_eq_default]
          rw [hlen]
          omega
        simp only [rowSum, h0, h1, Nat.sub_self]
        rfl
  have hmap : (List.range rows).map
      (rowSum add mul zero (build rows cols ([] : List (Triplet α))) v) =
      List.replicate rows zero := by
    rw [List.eq_replicate_iff]
    constructor
    · rw [List.length_map, List.length_range]
    · intro b hb
      rcases List.mem_map.mp hb with ⟨j, _, rfl⟩
      exact hrs j
  refine ⟨build_row_ptr_length rows cols [], fun r hr => hzero r (by omega), ?_, ?_, ?_, ?_⟩
  · rw [build_col_ind]; rfl
  · rw [build_values]; rfl
  · unfold spmv_csr_sequential
    rw [show (build rows cols ([] : List (Triplet α))).rows = rows from rfl,
      runRows_eq_map _ rows _ _ (List.Perm.refl _) hc]
    exact hmap
  · unfold spmv_csr_parallel
    rw [runRows_eq_map _ rows _ _ hord hc]
    exact hmap

/-- Witness for C10: a 2×3 matrix with no nonzeros, `v = [1,2,3]`, a dirty
output buffer and the reversed completion order. -/
theorem build_empty_triplets_witness :
    (build 2 3 ([] : List (Triplet ℤ))).row_ptr.length = 2 + 1 ∧
    spmv_csr_sequential (· + ·) (· * ·) (0 : ℤ) (build 2 3 ([] : List (Triplet ℤ)))
        [1, 2, 3] [5, 5] =
      List.replicate 2 0 :=
  ⟨(build_empty_triplets (· + ·) (· * ·) (0 : ℤ) 2 3 (by decide) (by decide)
      [1, 2, 3] [5, 5] [1, 0] (by decide) (by decide)).1,
    (build_empty_triplets (· + ·) (· * ·) (0 : ℤ) 2 3 (by decide) (by decide)
      [1, 2, 3] [5, 5] [1, 0] (by decide) (by decide)).2.2.2.2.1⟩

/-- C5 counterexample: at `rows = 1, cols = 1` with the single
out-of-range triplet `(0, 5, 2.0)` (`col = 5 ≥ cols = 1`), the
construction raises nothing: it returns a complete CsrMatrix carrying the
invalid column index — contradicting "fails with MalformedInputError
during CSR construction and no partial CsrMatrix is returned". -/
theorem build_no_validation_counterexample :
    build 1 1 [(⟨0, 5, 2⟩ : Triplet ℤ)] =
      { rows := 1, cols := 1, nnz := 1, row_ptr := [0, 1],
        col_ind := [5], values := [2] } ∧
    ¬((build 1 1 [(⟨0, 5, 2⟩ : Triplet ℤ)]).col_ind.getD 0 0 <
        (build 1 1 [(⟨0, 5, 2⟩ : Triplet ℤ)]).cols) :=
  ⟨by decide, by decide⟩

/-- C5 amended: the construction contains no validation check and no
error path: on the domain where the C++ behaviour is defined — every
triplet's row inside `[0, rows)` — it returns a complete CsrMatrix
without raising anything, copying every triplet's column and value into
the CSR arrays unchecked even when a column index falls outside
`[0, cols)`; detection of malformed input is left to the external parser.
(Triplet rows `≥ rows` reach unchecked out-of-bounds `row_ptr` writes in
the C++ and are outside this statement; so are negative dimensions, which
make the `row_ptr` allocation fail.) -/
theorem build_no_validation_unchecked_columns {α : Type} (rows cols : ℕ)
    (ts : List (Triplet α)) (_hrow : ∀ t ∈ ts, t.row < rows) :
    (build rows cols ts).col_ind = (sortTriplets ts).map Triplet.col ∧
    (build rows cols ts).values = (sortTriplets ts).map Triplet.val ∧
    (build rows cols ts).nnz = ts.length ∧
    (build rows cols ts).rows = rows ∧
    (build rows cols ts).cols = cols :=
  ⟨build_col_ind rows cols ts, build_values rows cols ts, rfl, rfl, rfl⟩

/-- Witness for the amended C5: the counterexample's own input — an
in-range row carrying the out-of-range column 5 at `cols = 1` — flows
through the construction unchecked. -/
theorem build_no_validation_unchecked_columns_witness :
    (build 1 1 [(⟨0, 5, 2⟩ : Triplet ℤ)]).col_ind =
      (sortTriplets [(⟨0, 5, 2⟩ : Triplet ℤ)]).map Triplet.col ∧
    (build 1 1 [(⟨0, 5, 2⟩ : Triplet ℤ)]).values =
      (sortTriplets [(⟨0, 5, 2⟩ : Triplet ℤ)]).map Triplet.val ∧
    (build 1 1 [(⟨0, 5, 2⟩ : Triplet ℤ)]).nnz =
      ([(⟨0, 5, 2⟩ : Triplet ℤ)] : List (Triplet ℤ)).length ∧
    (build 1 1 [(⟨0, 5, 2⟩ : Triplet ℤ)]).rows = 1 ∧
    (build 1 1 [(⟨0, 5, 2⟩ : Triplet ℤ)]).cols = 1 :=
  build_no_validation_unchecked_columns 1 1 [⟨0, 5, 2⟩] (by decide)

/-! ## Claim theorems about the run configuration -/

/-- C4 counterexample: `threads = 0` with a valid schedule is NOT
rejected — `main` range-checks only the schedule string, so the
configuration is accepted and `omp_set_num_threads(0)` is reached,
contradicting "threads <= 0 … a ConfigurationError is raised". -/
theorem configureRun_accepts_zero_threads :
    configureRun "static" 10 0 =
      some { sched := SchedKind.static, chunk := 10, threads := 0 } := by
  decide

/-- C4 amended: a schedule value other than static/dynamic/guided is
rejected before any kernel work begins (in particular `"bogus"` is), and
ONLY such values are rejected: the thread count is not validated, so
`threads = 0` (or any non-positive value) is accepted. -/
theorem configureRun_rejects_iff_bad_schedule (s : String) (chunk threads : ℤ) :
    configureRun s chunk threads = none ↔
      (s ≠ "static" ∧ s ≠ "dynamic" ∧ s ≠ "guided") := by
  unfold configureRun
  split_ifs with h1 h2 h3 <;> simp_all

/-! ## Claim theorems about the benchmark loop -/

/-- The timed-runs fold unrolled: starting from any state, `N` runs apply
the kernel `N` more times in strict sequence, each appending exactly one
duration sample. -/
theorem bench_loop_spec {α : Type} (kernel : List α → List α) (clock : ℕ → ℚ) :
    ∀ (N : ℕ) (st : BenchResult α),
      (List.range N).foldl
        (fun st run =>
          let start := clock (2 * run)
          let c_next := kernel st.c
          let finish := clock (2 * run + 1)
          { c := c_next
            kernel_calls := st.kernel_calls + 1
            times_ms := st.times_ms ++ [(finish - start) * 1000] }) st =
      { c := kernel^[N] st.c
        kernel_calls := st.kernel_calls + N
        times_ms := st.times_ms ++
          (List.range N).map (fun run => (clock (2 * run + 1) - clock (2 * run)) * 1000) } := by
  intro N
  induction N with
  | zero => intro st; simp
  | succ n ih =>
    intro st
    rw [List.range_succ, List.foldl_append, ih st]
    simp [Function.iterate_succ_apply', List.range_succ]
    omega

/-- C9: the harness generates one dense vector of length `A.cols` with
every entry in `[-1000, 1000]`, invokes the kernel exactly `1 + N` times
in strict sequence (one untimed warm-up — no duration is recorded for
it — then `N` timed calls), and returns exactly the `N` per-run durations
`(end - start) * 1000` milliseconds, in order and unaggregated. -/
theorem benchmark_harness_contract (kernel : List ℚ → List ℚ) (A : CsrMatrix ℚ)
    (u clock : ℕ → ℚ) (N : ℕ) (hu : ∀ k, 0 ≤ u k ∧ u k < 1) :
    (genVector u A.cols).length = A.cols ∧
    (∀ x ∈ genVector u A.cols, -1000 ≤ x ∧ x ≤ 1000) ∧
    (benchmarkHarness kernel (List.replicate A.rows 0) clock N).kernel_calls =
      1 + N ∧
    (benchmarkHarness kernel (List.replicate A.rows 0) clock N).c =
      kernel^[N + 1] (List.replicate A.rows 0) ∧
    (benchmarkHarness kernel (List.replicate A.rows 0) clock N).times_ms =
      (List.range N).map (fun run => (clock (2 * run + 1) - clock (2 * run)) * 1000) := by
  have hb : benchmarkHarness kernel (List.replicate A.rows 0) clock N =
      { c := kernel^[N] (kernel (List.replicate A.rows 0))
        kernel_calls := 1 + N
        times_ms := (List.range N).map
          (fun run => (clock (2 * run + 1) - clock (2 * run)) * 1000) } := by
    unfold benchmarkHarness
    rw [bench_loop_spec kernel clock N]
    simp
  refine ⟨?_, ?_, ?_, ?_, ?_⟩
  · rw [genVector, List.length_map, List.length_range]
  · intro x hx
    rcases List.mem_map.mp hx with ⟨j, _, rfl⟩
    rcases hu j with ⟨h0, h1⟩
    constructor <;> nlinarith
  · rw [hb]
  · rw [hb, Function.iterate_succ_apply]
  · rw [hb]

/-- Witness for C9: identity kernel, the all-zero sample stream, an
integer clock and `N = 2` timed runs on a 1×1 matrix. -/
theorem benchmark_harness_contract_witness :
    (genVector (fun _ => 0) (build 1 1 ([] : List (Triplet ℚ))).cols).length =
      (build 1 1 ([] : List (Triplet ℚ))).cols ∧
    (∀ x ∈ genVector (fun _ => 0) (build 1 1 ([] : List (Triplet ℚ))).cols,
      -1000 ≤ x ∧ x ≤ 1000) ∧
    (benchmarkHarness (fun c => c)
        (List.replicate (build 1 1 ([] : List (Triplet ℚ))).rows (0 : ℚ))
        (fun k => (k : ℚ)) 2).kernel_calls = 1 + 2 ∧
    (benchmarkHarness (fun c => c)
        (List.replicate (build 1 1 ([] : List (Triplet ℚ))).rows (0 : ℚ))
        (fun k => (k : ℚ)) 2).c =
      (fun c => c)^[2 + 1]
        (List.replicate (build 1 1 ([] : List (Triplet ℚ))).rows (0 : ℚ)) ∧
    (benchmarkHarness (fun c => c)
        (List.replicate (build 1 1 ([] : List (Triplet ℚ))).rows (0 : ℚ))
        (fun k => (k : ℚ)) 2).times_ms =
      (List.range 2).map
        (fun run => (((2 * run + 1 : ℕ) : ℚ) - ((2 * run : ℕ) : ℚ)) * 1000) :=
  benchmark_harness_contract (fun c => c) (build 1 1 ([] : List (Triplet ℚ)))
    (fun _ => 0) (fun k => (k : ℚ)) 2
    (fun _ => ⟨le_refl 0, by norm_num⟩)

end CsrPar
